import Mathlib

/-!
Verification development for `patch-finder.py` (MHonArc mailing-list
archive scraper).  The core of the program is embedded shallowly:

* `splitlines`/`splitAux` model Python `str.splitlines()`;
* `rstrip` models Python `str.rstrip()`;
* `subjectMatch`/`sectionMatch` model the two `re.match` calls of
  `MHonArcScraper.scrape_html_mail` (prefix-anchored, greedy);
* `segStep`/`segLines`/`segment` model the section-accumulation loop;
* `stripWrapper` and `scrape_html_mail` model the body lookup and the
  `<PRE>` wrapper stripping, with the `None.startswith` failure modelled
  as `Except.error`;
* `extractGo`/`extractPre`/`extract_patch` model `extract_patch`;
* `extractGoE`/`extractPreE`/`extract_patchE` re-model `extract_patch`
  with the `line[0]` indexing made explicitly fallible.

Strings are embedded as `List Char`; `toL` converts a Lean string
literal to that representation.
-/

namespace PatchFinder

/-- Character list of a string literal. -/
def toL (s : String) : List Char := s.data

/-- Line-break characters of Python `str.splitlines()` (the last two
are the Unicode LINE SEPARATOR and PARAGRAPH SEPARATOR codepoints). -/
def isLineBreak (c : Char) : Bool :=
  c = '\n' || c = '\r' || c = '\x0b' || c = '\x0c' ||
  c = '\x1c' || c = '\x1d' || c = '\x1e' || c = '\x85' ||
  c = '\u2028' || c = '\u2029'

/-- Worker for `splitlines`: `acc` is the current line, reversed, and
`afterCR` records that the previous character was a line-ending `'\r'`,
so that a following `'\n'` is the second half of a single `"\r\n"` break.
A trailing line is emitted only when non-empty, matching Python
(`"a\n".splitlines() == ["a"]`). -/
def splitAux : List Char → Bool → List Char → List (List Char)
  | [], _, acc => if acc = [] then [] else [acc.reverse]
  | c :: rest, afterCR, acc =>
    if c = '\n' && afterCR then splitAux rest false acc
    else if isLineBreak c then acc.reverse :: splitAux rest (c = '\r') []
    else splitAux rest false (c :: acc)

/-- Python `body.splitlines()`. -/
def splitlines (s : List Char) : List (List Char) := splitAux s false []

/-- Concatenation of lines, each terminated by `'\n'`: the shape of every
accumulator built by the scraper (`subdivisions[state] += line + '\n'`,
`patch += line + '\n'`). -/
def joinLines : List (List Char) → List Char
  | [] => []
  | l :: ls => l ++ '\n' :: joinLines ls

/-- Whitespace for Python `str.rstrip()` (the ASCII / Latin-1 part of
`str.isspace`; no claim depends on the astral whitespace codepoints). -/
def isPySpace (c : Char) : Bool :=
  c = ' ' || c = '\t' || c = '\n' || c = '\r' || c = '\x0b' || c = '\x0c' ||
  c = '\x1c' || c = '\x1d' || c = '\x1e' || c = '\x1f' || c = '\x85' || c = '\xa0'

/-- Python `s.rstrip()`. -/
def rstrip (s : List Char) : List Char :=
  (s.reverse.dropWhile isPySpace).reverse

/-- The literal `'<!--X-Subject: '` opening the subject-marker regex. -/
def subjectPat : List Char := toL "<!--X-Subject: "

/-- The literal `' -->'` closing the subject-marker regex. -/
def subjectClose : List Char := toL " -->"

/-- Text before the last occurrence of `sep`, if `sep` occurs: the value
captured by the greedy `(.*)` of `re.match('<!--X-Subject: (.*) -->', line)`
(on break-free lines `.` matches every character). -/
def lastOccSplit (sep : List Char) : List Char → Option (List Char)
  | [] => none
  | c :: rest =>
    match lastOccSplit sep rest with
    | some r => some (c :: r)
    | none => if sep.isPrefixOf (c :: rest) then some [] else none

/-- `re.match('<!--X-Subject: (.*) -->', line)`: `re.match` anchors at the
start of the line only. -/
def subjectMatch (line : List Char) : Option (List Char) :=
  if subjectPat.isPrefixOf line then lastOccSplit subjectClose (line.drop subjectPat.length)
  else none

/-- The literal `'<!--X-'` opening the section-marker regex. -/
def sectionPat : List Char := toL "<!--X-"

/-- The literal `'-->'` closing the section-marker regex. -/
def arrowPat : List Char := toL "-->"

/-- The character class `[A-za-z-]` of the section-marker regex.  Note the
source writes `A-z`, a range that also covers the ASCII characters between
`'Z'` and `'a'`. -/
def classChar (c : Char) : Bool :=
  ('A' ≤ c && c ≤ 'z') || ('a' ≤ c && c ≤ 'z') || c = '-'

/-- Backtracking of the greedy `([A-za-z-]+)`: largest `j` with
`1 ≤ j ≤ k` such that `'-->'` starts at offset `j` of `rest`. -/
def findClose (rest : List Char) : Nat → Option Nat
  | 0 => none
  | j + 1 =>
    if arrowPat.isPrefixOf (rest.drop (j + 1)) then some (j + 1)
    else findClose rest j

/-- `re.match('<!--X-([A-za-z-]+)-->', line)`: anchored at line start only;
returns the captured section name. -/
def sectionMatch (line : List Char) : Option (List Char) :=
  if sectionPat.isPrefixOf line then
    let rest := line.drop sectionPat.length
    match findClose rest (rest.takeWhile classChar).length with
    | some j => some (rest.take j)
    | none => none
  else none

/-- The mutable scan state of `scrape_html_mail`'s loop: current section
name, the ordered mapping `subdivisions`, and the subject found so far. -/
structure SegState where
  state : List Char
  subs : List (List Char × List Char)
  subject : Option (List Char)

/-- `OrderedDict` lookup (`subdivisions.get(k)`). -/
def lookupKey : List (List Char × List Char) → List Char → Option (List Char)
  | [], _ => none
  | (k', v) :: rest, k => if k' = k then some v else lookupKey rest k

/-- `OrderedDict` assignment `subdivisions[k] = v`: update in place when the
key exists (keeping its position), else append at the end. -/
def setKey : List (List Char × List Char) → List Char → List Char → List (List Char × List Char)
  | [], k, v => [(k, v)]
  | (k', v') :: rest, k, v =>
    if k' = k then (k, v) :: rest else (k', v') :: setKey rest k v

/-- `subdivisions[k] += v`: appends to an existing key's text.  The key is
always present when this runs — `state` starts as a key and every marker
inserts its name — so Python's `KeyError` branch is unreachable and the
missing-key case is a no-op here (see `segLines_state_mem`). -/
def appendKey : List (List Char × List Char) → List Char → List Char → List (List Char × List Char)
  | [], _, _ => []
  | (k', v') :: rest, k, v =>
    if k' = k then (k', v' ++ v) :: rest else (k', v') :: appendKey rest k v

/-- One iteration of the `for line in html_mail.splitlines()` loop. -/
def segStep (s : SegState) (line : List Char) : SegState :=
  match subjectMatch line with
  | some v => { s with subject := some v }
  | none =>
    match sectionMatch line with
    | some name => { state := name, subs := setKey s.subs name [], subject := s.subject }
    | none => { s with subs := appendKey s.subs s.state (line ++ '\n' :: []) }

/-- The sentinel initial section name. -/
def preambleName : List Char := toL "preamble"

/-- Scan state before the loop: `state = 'preamble'`,
`subdivisions = {'preamble': ''}`, `subject = None`. -/
def segInit : SegState := ⟨preambleName, [(preambleName, [])], none⟩

/-- The whole loop, over an explicit list of lines. -/
def segLines (lines : List (List Char)) : SegState := lines.foldl segStep segInit

/-- Segmentation of a document: the loop applied to `splitlines`. -/
def segment (doc : List Char) : SegState := segLines (splitlines doc)

/-- The well-known body section name. -/
def bodyName : List Char := toL "Body-of-Message"

/-- `PREFIX = '<PRE>\n'`. -/
def PREFIX : List Char := toL "<PRE>\n"

/-- `SUFFIX = '\n</PRE>\n\n'`. -/
def SUFFIX : List Char := toL "\n</PRE>\n\n"

/-- The wrapper stripping of `scrape_html_mail` lines 120-125: strip the
prefix if present, then test the suffix on the (possibly already
prefix-stripped) body. -/
def stripWrapper (body : List Char) : List Char :=
  let b1 := if PREFIX.isPrefixOf body then body.drop PREFIX.length else body
  if SUFFIX.isSuffixOf b1 then b1.take (b1.length - SUFFIX.length) else b1

/-- `scrape_html_mail` after segmentation: `subdivisions.get('Body-of-Message')`
returns `None` when the section is absent, and the following
`body.startswith(PREFIX)` then raises `AttributeError` — modelled as
`Except.error ()`. -/
def scrape_html_mail (html_mail : List Char) : Except Unit (Option (List Char) × List Char) :=
  let s := segment html_mail
  match lookupKey s.subs bodyName with
  | none => Except.error ()
  | some body => Except.ok (s.subject, stripWrapper body)

/-- The four unified-diff line-start characters `'-+@ '`. -/
def diffChars : List Char := ['-', '+', '@', ' ']

/-- The patch-start literal `'--- '`. -/
def startPat : List Char := toL "--- "

/-- The WITHIN state of `extract_patch`: `patch` is the accumulator.
Blank line: keep a bare newline.  Non-blank line starting in `'-+@ '`:
keep it.  Any other non-blank line: stop, returning the accumulator
right-stripped with a single newline appended.  End of input: return the
accumulator as-is. -/
def extractGo : List (List Char) → List Char → Option (List Char)
  | [], patch => some patch
  | line :: rest, patch =>
    match line with
    | [] => extractGo rest (patch ++ '\n' :: [])
    | c :: _ =>
      if diffChars.contains c then extractGo rest (patch ++ line ++ '\n' :: [])
      else some (rstrip patch ++ '\n' :: [])

/-- The BEFORE state of `extract_patch`: discard lines until one starts
with `'--- '`, which begins the accumulator. -/
def extractPre : List (List Char) → Option (List Char)
  | [] => none
  | line :: rest =>
    if startPat.isPrefixOf line then extractGo rest (line ++ '\n' :: [])
    else extractPre rest

/-- `extract_patch(body)`. -/
def extract_patch (body : List Char) : Option (List Char) := extractPre (splitlines body)

/-- Python `line[0]` as a fallible operation (IndexError on the empty
string, modelled as `Except.error ()`). -/
def charAt0 : List Char → Except Unit Char
  | [] => Except.error ()
  | c :: _ => Except.ok c

/-- `extract_patch`'s WITHIN state with the `line[0]` indexing explicit:
the `line == ''` test runs first, exactly as in the source. -/
def extractGoE : List (List Char) → List Char → Except Unit (Option (List Char))
  | [], patch => Except.ok (some patch)
  | line :: rest, patch =>
    if line = [] then extractGoE rest (patch ++ '\n' :: [])
    else
      match charAt0 line with
      | Except.error e => Except.error e
      | Except.ok c =>
        if diffChars.contains c then extractGoE rest (patch ++ line ++ '\n' :: [])
        else Except.ok (some (rstrip patch ++ '\n' :: []))

/-- The BEFORE state for the fallible model. -/
def extractPreE : List (List Char) → Except Unit (Option (List Char))
  | [] => Except.ok none
  | line :: rest =>
    if startPat.isPrefixOf line then extractGoE rest (line ++ '\n' :: [])
    else extractPreE rest

/-- `extract_patch` with fallible indexing. -/
def extract_patchE (body : List Char) : Except Unit (Option (List Char)) :=
  extractPreE (splitlines body)

/-- A line with no line-break characters (every line `splitlines`
produces is such). -/
def lineBreakFree (l : List Char) : Bool := l.all (fun c => !isLineBreak c)

/-- A line the WITHIN state keeps: blank, or first character in `'-+@ '`. -/
def keepLine : List Char → Bool
  | [] => true
  | c :: _ => diffChars.contains c

/-- Whether `pat` occurs as a contiguous subsequence of `s` (used to state
when the greedy `(.*)` capture is unambiguous). -/
def hasOccur (pat : List Char) : List Char → Bool
  | [] => false
  | c :: rest => pat.isPrefixOf (c :: rest) || hasOccur pat rest

theorem breakFree_mem {l : List Char} (h : lineBreakFree l = true) :
    ∀ c ∈ l, isLineBreak c = false := by
  intro c hc
  have := List.all_eq_true.mp h c hc
  simpa using this

theorem lineBreakFree_of_mem {l : List Char} (h : ∀ c ∈ l, isLineBreak c = false) :
    lineBreakFree l = true := by
  apply List.all_eq_true.mpr
  intro c hc
  simpa using h c hc

theorem joinLines_append (a b : List (List Char)) :
    joinLines (a ++ b) = joinLines a ++ joinLines b := by
  induction a with
  | nil => rfl
  | cons l ls ih => simp [joinLines, ih]

theorem joinLines_concat (a : List (List Char)) (l : List Char) :
    joinLines (a ++ [l]) = joinLines a ++ l ++ '\n' :: [] := by
  simp [joinLines_append, joinLines]

theorem splitAux_line (l : List Char) (rest acc : List Char)
    (h : ∀ c ∈ l, isLineBreak c = false) :
    splitAux (l ++ '\n' :: rest) false acc = (acc.reverse ++ l) :: splitAux rest false [] := by
  induction l generalizing acc with
  | nil => simp [splitAux, show isLineBreak '\n' = true from rfl]
  | cons c l' ih =>
    have hc : isLineBreak c = false := h c (List.mem_cons_self _ _)
    simp [splitAux, hc, ih (c :: acc) (fun d hd => h d (List.mem_cons_of_mem _ hd))]

theorem splitlines_joinLines (ls : List (List Char))
    (h : ∀ l ∈ ls, lineBreakFree l = true) :
    splitlines (joinLines ls) = ls := by
  induction ls with
  | nil => rfl
  | cons l ls' ih =>
    have h1 : ∀ c ∈ l, isLineBreak c = false :=
      breakFree_mem (h l (List.mem_cons_self _ _))
    have h2 := ih (fun x hx => h x (List.mem_cons_of_mem _ hx))
    unfold splitlines at h2 ⊢
    simp [joinLines, splitAux_line l (joinLines ls') [] h1, h2]

theorem joinLines_splitAux (doc : List Char) :
    ∀ acc, (∀ c ∈ doc, isLineBreak c = true → c = '\n') →
    (doc ≠ [] → doc.getLast? = some '\n') → (doc = [] → acc = []) →
    joinLines (splitAux doc false acc) = acc.reverse ++ doc := by
  induction doc with
  | nil =>
    intro acc _ _ h3
    simp [splitAux, h3 rfl, joinLines]
  | cons c rest ih =>
    intro acc hpure hend _
    by_cases hb : isLineBreak c = true
    · have hcn : c = '\n' := hpure c (List.mem_cons_self _ _) hb
      subst hcn
      have hcr : (('\n' : Char) = '\r') = False := by simp
      have ihr := ih [] (fun d hd hbd => hpure d (List.mem_cons_of_mem _ hd) hbd)
        (fun hne => by
          cases rest with
          | nil => exact absurd hne (by simp)
          | cons d rest' =>
            have := hend (by simp)
            simpa using this)
        (fun _ => rfl)
      simp [splitAux, hb, hcr, joinLines, ihr]
    · have hnn : (c = '\n') = False := by
        simp only [eq_iff_iff, iff_false]
        intro hc
        subst hc
        simp [isLineBreak] at hb
      have hr : rest ≠ [] := by
        intro hre
        subst hre
        have := hend (by simp)
        simp at this
        subst this
        simp [isLineBreak] at hb
      have ihr := ih (c :: acc) (fun d hd hbd => hpure d (List.mem_cons_of_mem _ hd) hbd)
        (fun _ => by
          cases rest with
          | nil => exact absurd rfl hr
          | cons d rest' => simpa using hend (by simp))
        (fun hre => absurd hre hr)
      simp [splitAux, hb, hnn, ihr]

theorem joinLines_splitlines (doc : List Char)
    (hpure : ∀ c ∈ doc, isLineBreak c = true → c = '\n')
    (hend : doc ≠ [] → doc.getLast? = some '\n') :
    joinLines (splitlines doc) = doc := by
  have := joinLines_splitAux doc [] hpure hend (fun _ => rfl)
  simpa [splitlines] using this

theorem splitAux_breakFree (doc : List Char) :
    ∀ flag acc, (∀ c ∈ acc, isLineBreak c = false) →
    ∀ l ∈ splitAux doc flag acc, lineBreakFree l = true := by
  induction doc with
  | nil =>
    intro flag acc hacc l hl
    by_cases h : acc = []
    · simp [splitAux, h] at hl
    · simp [splitAux, h] at hl
      subst hl
      exact lineBreakFree_of_mem (fun c hc => hacc c (List.mem_reverse.mp hc))
  | cons c rest ih =>
    intro flag acc hacc l hl
    by_cases h1 : (decide (c = '\n') && flag) = true
    · rw [splitAux] at hl
      rw [if_pos h1] at hl
      exact ih false acc hacc l hl
    · by_cases hb : isLineBreak c = true
      · rw [splitAux, if_neg h1, if_pos hb] at hl
        rcases List.mem_cons.mp hl with hl | hl
        · subst hl
          exact lineBreakFree_of_mem (fun d hd => hacc d (List.mem_reverse.mp hd))
        · exact ih _ [] (by simp) l hl
      · rw [splitAux, if_neg h1, if_neg hb] at hl
        refine ih false (c :: acc) ?_ l hl
        intro d hd
        rcases List.mem_cons.mp hd with hd | hd
        · subst hd; simpa using hb
        · exact hacc d hd

theorem splitlines_breakFree (doc : List Char) :
    ∀ l ∈ splitlines doc, lineBreakFree l = true :=
  splitAux_breakFree doc false [] (by simp)

theorem rstrip_concat_space (s : List Char) (c : Char) (h : isPySpace c = true) :
    rstrip (s ++ [c]) = rstrip s := by
  simp [rstrip, List.dropWhile_cons, h]

theorem rstrip_append_of_ne (a b : List Char) (h : rstrip b ≠ []) :
    rstrip (a ++ b) = a ++ rstrip b := by
  have hdw : b.reverse.dropWhile isPySpace ≠ [] := by
    intro he
    exact h (by simp [rstrip, he])
  simp only [rstrip, List.reverse_append, List.dropWhile_append,
    List.isEmpty_iff, if_neg hdw, List.reverse_reverse]

theorem rstrip_append_of_nil (a b : List Char) (h : rstrip b = []) :
    rstrip (a ++ b) = rstrip a := by
  have hdw : b.reverse.dropWhile isPySpace = [] := by
    have := congrArg List.reverse h
    simpa [rstrip] using this
  simp only [rstrip, List.reverse_append, List.dropWhile_append,
    List.isEmpty_iff, if_pos hdw]

theorem rstrip_prefix (l : List Char) :
    ∃ t, l = rstrip l ++ t ∧ ∀ c ∈ t, isPySpace c = true := by
  refine ⟨(l.reverse.takeWhile isPySpace).reverse, ?_, ?_⟩
  · calc l = l.reverse.reverse := by simp
      _ = (l.reverse.takeWhile isPySpace ++ l.reverse.dropWhile isPySpace).reverse := by
          rw [List.takeWhile_append_dropWhile]
      _ = rstrip l ++ (l.reverse.takeWhile isPySpace).reverse := by
          rw [List.reverse_append]; rfl
  · intro c hc
    exact List.mem_takeWhile_imp (List.mem_reverse.mp hc)

theorem extractGo_all_keep (ls : List (List Char)) :
    ∀ acc, (∀ l ∈ ls, keepLine l = true) →
    extractGo ls acc = some (acc ++ joinLines ls) := by
  induction ls with
  | nil => intro acc _; simp [extractGo, joinLines]
  | cons l ls' ih =>
    intro acc h
    have hl : keepLine l = true := h l (List.mem_cons_self _ _)
    have hrest : ∀ a, extractGo ls' a = some (a ++ joinLines ls') :=
      fun a => ih a (fun x hx => h x (List.mem_cons_of_mem _ hx))
    cases l with
    | nil =>
      simp only [extractGo, hrest, joinLines]
      simp
    | cons c t =>
      have hc : diffChars.contains c = true := by simpa [keepLine] using hl
      simp only [extractGo, hc, if_pos, hrest, joinLines]
      simp

theorem extractPre_skip (pre ls : List (List Char))
    (h : ∀ l ∈ pre, startPat.isPrefixOf l = false) :
    extractPre (pre ++ ls) = extractPre ls := by
  induction pre with
  | nil => rfl
  | cons l pre' ih =>
    have hl : startPat.isPrefixOf l = false := h l (List.mem_cons_self _ _)
    simp [extractPre, hl, ih (fun x hx => h x (List.mem_cons_of_mem _ hx))]

/-- Right-stripping an accumulator of `'\n'`-terminated kept lines and
re-appending one newline yields again an accumulator of kept lines. -/
theorem rstrip_joinLines (lls : List (List Char))
    (h : ∀ l ∈ lls, lineBreakFree l = true ∧ keepLine l = true) :
    ∃ pls, rstrip (joinLines lls) ++ '\n' :: [] = joinLines pls ∧
      ∀ l ∈ pls, lineBreakFree l = true ∧ keepLine l = true := by
  induction lls using List.reverseRecOn with
  | nil =>
    refine ⟨[[]], by simp [rstrip, joinLines], ?_⟩
    intro l hl
    simp at hl
    subst hl
    exact ⟨rfl, rfl⟩
  | append_singleton xs x ih =>
    have hx := h x (by simp)
    have hxs : ∀ l ∈ xs, lineBreakFree l = true ∧ keepLine l = true :=
      fun l hl => h l (by simp [hl])
    have hjoin : joinLines (xs ++ [x]) = (joinLines xs ++ x) ++ [('\n' : Char)] := by
      simp [joinLines_concat]
    by_cases hrx : rstrip x = []
    · obtain ⟨pls, hpls, hgood⟩ := ih hxs
      refine ⟨pls, ?_, hgood⟩
      rw [hjoin, rstrip_concat_space _ _ (by decide), rstrip_append_of_nil _ _ hrx]
      exact hpls
    · refine ⟨xs ++ [rstrip x], ?_, ?_⟩
      · rw [hjoin, rstrip_concat_space _ _ (by decide), rstrip_append_of_ne _ _ hrx,
          joinLines_concat]
      · intro l hl
        rcases List.mem_append.mp hl with hl | hl
        · exact hxs l hl
        · have hlx : l = rstrip x := by simpa using hl
          subst hlx
          obtain ⟨t, hxeq, _⟩ := rstrip_prefix x
          constructor
          · refine lineBreakFree_of_mem (fun c hc => ?_)
            exact breakFree_mem hx.1 c (hxeq ▸ List.mem_append.mpr (Or.inl hc))
          · cases hr : rstrip x with
            | nil => exact absurd hr hrx
            | cons d r =>
              cases x with
              | nil => simp [rstrip] at hr
              | cons e x' =>
                have hkx : diffChars.contains e = true := by
                  simpa [keepLine] using hx.2
                rw [hr] at hxeq
                have hde : d = e := by
                  have := hxeq
                  simp at this
                  exact this.1.symm
                rw [keepLine, hde]
                exact hkx

/-- WITHIN-state invariant: when the accumulator is a join of break-free
kept lines, any returned patch is again a join of break-free kept lines. -/
theorem extractGo_some_good (ls : List (List Char)) :
    ∀ accLines p, (∀ l ∈ ls, lineBreakFree l = true) →
    (∀ l ∈ accLines, lineBreakFree l = true ∧ keepLine l = true) →
    extractGo ls (joinLines accLines) = some p →
    ∃ pls, p = joinLines pls ∧ ∀ l ∈ pls, lineBreakFree l = true ∧ keepLine l = true := by
  induction ls with
  | nil =>
    intro accLines p _ hacc hp
    simp [extractGo] at hp
    exact ⟨accLines, hp.symm, hacc⟩
  | cons l ls' ih =>
    intro accLines p hls hacc hp
    have hls' : ∀ x ∈ ls', lineBreakFree x = true := fun x hx => hls x (List.mem_cons_of_mem _ hx)
    cases l with
    | nil =>
      rw [extractGo] at hp
      have hstep : joinLines accLines ++ '\n' :: [] = joinLines (accLines ++ [[]]) := by
        simp [joinLines_concat]
      rw [hstep] at hp
      refine ih (accLines ++ [[]]) p hls' ?_ hp
      intro x hx
      rcases List.mem_append.mp hx with hx | hx
      · exact hacc x hx
      · have : x = [] := by simpa using hx
        subst this
        exact ⟨rfl, rfl⟩
    | cons c t =>
      rw [extractGo] at hp
      by_cases hc : diffChars.contains c = true
      · rw [if_pos hc] at hp
        have hstep : joinLines accLines ++ (c :: t) ++ '\n' :: [] =
            joinLines (accLines ++ [c :: t]) := by
          simp [joinLines_concat]
        rw [hstep] at hp
        refine ih (accLines ++ [c :: t]) p hls' ?_ hp
        intro x hx
        rcases List.mem_append.mp hx with hx | hx
        · exact hacc x hx
        · have : x = c :: t := by simpa using hx
          subst this
          exact ⟨hls _ (List.mem_cons_self _ _), by simpa [keepLine] using hc⟩
      · rw [if_neg hc] at hp
        obtain ⟨pls, hpls, hgood⟩ := rstrip_joinLines accLines hacc
        refine ⟨pls, ?_, hgood⟩
        have := hp
        injection this with h
        rw [← h, hpls]

/-- BEFORE-state: any patch `extract_patch` returns is a join of
break-free kept lines. -/
theorem extractPre_some_good (ls : List (List Char)) :
    ∀ p, (∀ l ∈ ls, lineBreakFree l = true) → extractPre ls = some p →
    ∃ pls, p = joinLines pls ∧ ∀ l ∈ pls, lineBreakFree l = true ∧ keepLine l = true := by
  induction ls with
  | nil => intro p _ hp; simp [extractPre] at hp
  | cons line rest ih =>
    intro p hls hp
    have hrest : ∀ l ∈ rest, lineBreakFree l = true := fun x hx => hls x (List.mem_cons_of_mem _ hx)
    rw [extractPre] at hp
    by_cases hpre : startPat.isPrefixOf line = true
    · rw [if_pos hpre] at hp
      have hline : line ++ '\n' :: [] = joinLines [line] := by simp [joinLines]
      rw [hline] at hp
      refine extractGo_some_good rest [line] p hrest ?_ hp
      intro x hx
      have hxl : x = line := by simpa using hx
      subst hxl
      refine ⟨hls x (List.mem_cons_self _ _), ?_⟩
      have hpfx : startPat <+: x := List.isPrefixOf_iff_prefix.mp hpre
      obtain ⟨t, ht⟩ := hpfx
      rw [← ht]
      rfl
    · rw [if_neg (by simpa using hpre)] at hp
      exact ih p hrest hp

/-- A break-free prefix of `m ++ '\n' :: tail` is a prefix of `m`. -/
theorem prefix_of_append_cons (pre : List Char) :
    ∀ m tail, (∀ c ∈ pre, c ≠ '\n') → pre <+: (m ++ '\n' :: tail) → pre <+: m := by
  induction pre with
  | nil => intro m _ _ _; exact List.nil_prefix
  | cons c pre' ih =>
    intro m tail hnb hp
    cases m with
    | nil =>
      simp at hp
      exact absurd hp.1 (hnb c (List.mem_cons_self _ _))
    | cons a m' =>
      rw [List.cons_append, List.cons_prefix_cons] at hp
      exact List.cons_prefix_cons.mpr
        ⟨hp.1, ih m' tail (fun d hd => hnb d (List.mem_cons_of_mem _ hd)) hp.2⟩

theorem extractGoE_ok (ls : List (List Char)) :
    ∀ acc, extractGoE ls acc = Except.ok (extractGo ls acc) := by
  induction ls with
  | nil => intro acc; rfl
  | cons l rest ih =>
    intro acc
    cases l with
    | nil => simp [extractGoE, extractGo, ih]
    | cons c t =>
      by_cases hc : c ∈ diffChars
      · simp [extractGoE, extractGo, charAt0, hc, ih]
      · simp [extractGoE, extractGo, charAt0, hc]

theorem extractPreE_ok (ls : List (List Char)) :
    extractPreE ls = Except.ok (extractPre ls) := by
  induction ls with
  | nil => rfl
  | cons line rest ih =>
    by_cases hpre : startPat.isPrefixOf line = true
    · simp [extractPreE, extractPre, hpre, extractGoE_ok]
    · simp [extractPreE, extractPre, hpre, ih]

/-- WITHIN-state invariant for C10: a non-empty accumulator ending in a
newline yields a non-empty result ending in a newline. -/
theorem extractGo_some_ends (ls : List (List Char)) :
    ∀ acc p, acc ≠ [] → acc.getLast? = some '\n' → extractGo ls acc = some p →
    p ≠ [] ∧ p.getLast? = some '\n' := by
  induction ls with
  | nil =>
    intro acc p hne hlast hp
    simp [extractGo] at hp
    subst hp
    exact ⟨hne, hlast⟩
  | cons l rest ih =>
    intro acc p hne hlast hp
    cases l with
    | nil =>
      rw [extractGo] at hp
      exact ih (acc ++ '\n' :: []) p (by simp) (by simpa using List.getLast?_concat acc) hp
    | cons c t =>
      rw [extractGo] at hp
      by_cases hc : diffChars.contains c = true
      · rw [if_pos hc] at hp
        refine ih (acc ++ (c :: t) ++ '\n' :: []) p (by simp) ?_ hp
        simpa using List.getLast?_concat (acc ++ (c :: t))
      · rw [if_neg hc] at hp
        injection hp with h
        subst h
        exact ⟨by simp, by simpa using List.getLast?_concat (rstrip acc)⟩

theorem extractPre_some_ends (ls : List (List Char)) :
    ∀ p, extractPre ls = some p → p ≠ [] ∧ p.getLast? = some '\n' := by
  induction ls with
  | nil => intro p hp; simp [extractPre] at hp
  | cons line rest ih =>
    intro p hp
    rw [extractPre] at hp
    by_cases hpre : startPat.isPrefixOf line = true
    · rw [if_pos hpre] at hp
      exact extractGo_some_ends rest (line ++ '\n' :: []) p (by simp)
        (by simpa using List.getLast?_concat line) hp
    · rw [if_neg (by simpa using hpre)] at hp
      exact ih p hp

theorem isPrefixOf_append_self (l t : List Char) : l.isPrefixOf (l ++ t) = true := by
  simp

theorem isSuffixOf_append_self (l t : List Char) : l.isSuffixOf (t ++ l) = true := by
  simp

theorem lookup_setKey_self (m : List (List Char × List Char)) (k v : List Char) :
    lookupKey (setKey m k v) k = some v := by
  induction m with
  | nil => simp [setKey, lookupKey]
  | cons p rest ih =>
    obtain ⟨k', v'⟩ := p
    by_cases h : k' = k
    · simp [setKey, h, lookupKey]
    · simp [setKey, h, lookupKey, ih]

theorem lookup_appendKey_self (m : List (List Char × List Char)) (k v w : List Char)
    (h : lookupKey m k = some v) :
    lookupKey (appendKey m k w) k = some (v ++ w) := by
  induction m with
  | nil => simp [lookupKey] at h
  | cons p rest ih =>
    obtain ⟨k', v'⟩ := p
    by_cases hk : k' = k
    · subst hk
      rw [lookupKey, if_pos rfl] at h
      injection h with h
      subst h
      simp [appendKey, lookupKey]
    · rw [lookupKey, if_neg hk] at h
      simp [appendKey, hk, lookupKey, ih h]

theorem segStep_marker (s : SegState) (line name : List Char)
    (hsub : subjectMatch line = none) (hsec : sectionMatch line = some name) :
    segStep s line = ⟨name, setKey s.subs name [], s.subject⟩ := by
  simp [segStep, hsub, hsec]

theorem segStep_plain (s : SegState) (line : List Char)
    (hsub : subjectMatch line = none) (hsec : sectionMatch line = none) :
    segStep s line = { s with subs := appendKey s.subs s.state (line ++ '\n' :: []) } := by
  simp [segStep, hsub, hsec]

/-- Folding marker-free lines keeps the current section and appends each
line (newline-terminated) to its accumulated text. -/
theorem foldl_plain_lookup (lines : List (List Char)) :
    ∀ (s : SegState) (v : List Char),
    (∀ l ∈ lines, subjectMatch l = none ∧ sectionMatch l = none) →
    lookupKey s.subs s.state = some v →
    (lines.foldl segStep s).state = s.state ∧
      lookupKey (lines.foldl segStep s).subs s.state = some (v ++ joinLines lines) := by
  induction lines with
  | nil => intro s v _ hv; simpa [joinLines] using hv
  | cons l rest ih =>
    intro s v h hv
    have hl := h l (List.mem_cons_self _ _)
    have hstep := segStep_plain s l hl.1 hl.2
    rw [List.foldl_cons, hstep]
    have hv' : lookupKey (appendKey s.subs s.state (l ++ '\n' :: [])) s.state =
        some (v ++ (l ++ '\n' :: [])) := lookup_appendKey_self _ _ _ _ hv
    have := ih { s with subs := appendKey s.subs s.state (l ++ '\n' :: []) }
      (v ++ (l ++ '\n' :: [])) (fun x hx => h x (List.mem_cons_of_mem _ hx)) hv'
    simpa [joinLines, List.append_assoc] using this

/-- Folding marker-free lines from the initial state accumulates the whole
input into the single `preamble` entry. -/
theorem foldl_plain_preamble (lines : List (List Char)) :
    ∀ acc, (∀ l ∈ lines, subjectMatch l = none ∧ sectionMatch l = none) →
    lines.foldl segStep ⟨preambleName, [(preambleName, acc)], none⟩ =
      ⟨preambleName, [(preambleName, acc ++ joinLines lines)], none⟩ := by
  induction lines with
  | nil => intro acc _; simp [joinLines]
  | cons l rest ih =>
    intro acc h
    have hl := h l (List.mem_cons_self _ _)
    rw [List.foldl_cons, segStep_plain _ _ hl.1 hl.2]
    have hstep : appendKey [(preambleName, acc)] preambleName (l ++ '\n' :: []) =
        [(preambleName, acc ++ (l ++ '\n' :: []))] := by
      simp [appendKey]
    simp only [hstep]
    have := ih (acc ++ (l ++ '\n' :: [])) (fun x hx => h x (List.mem_cons_of_mem _ hx))
    simpa [joinLines, List.append_assoc] using this

/-- The current section name is always a key of `subdivisions`: Python's
`subdivisions[state] += ...` can never raise `KeyError`. -/
theorem segLines_state_mem (lines : List (List Char)) :
    ∀ s : SegState, (∃ v, lookupKey s.subs s.state = some v) →
    ∃ v, lookupKey (lines.foldl segStep s).subs (lines.foldl segStep s).state = some v := by
  induction lines with
  | nil => intro s hs; exact hs
  | cons l rest ih =>
    intro s hs
    rw [List.foldl_cons]
    refine ih (segStep s l) ?_
    obtain ⟨v, hv⟩ := hs
    rw [segStep]
    cases hsub : subjectMatch l with
    | some subj => exact ⟨v, hv⟩
    | none =>
      cases hsec : sectionMatch l with
      | some name => exact ⟨[], lookup_setKey_self _ _ _⟩
      | none => exact ⟨v ++ (l ++ '\n' :: []), lookup_appendKey_self _ _ _ _ hv⟩

theorem findClose_succ (rest : List Char) (j : Nat) :
    findClose rest (j + 1) =
      if arrowPat.isPrefixOf (rest.drop (j + 1)) then some (j + 1) else findClose rest j := rfl

/-- The greedy backtracking search succeeds exactly at offset `n` when the
closing `'-->'` sits there and at no larger candidate offset. -/
theorem findClose_exact (rest : List Char) (n : Nat) (hn : 1 ≤ n)
    (h0 : arrowPat.isPrefixOf (rest.drop n) = true)
    (h1 : arrowPat.isPrefixOf (rest.drop (n + 1)) = false)
    (h2 : arrowPat.isPrefixOf (rest.drop (n + 2)) = false) :
    findClose rest (n + 2) = some n := by
  obtain ⟨m, rfl⟩ : ∃ m, n = m + 1 := ⟨n - 1, by omega⟩
  rw [show m + 1 + 2 = (m + 2) + 1 from by omega, findClose_succ,
    show m + 2 + 1 = m + 1 + 2 from by omega, if_neg (by simp [h2]),
    show m + 2 = (m + 1) + 1 from by omega, findClose_succ,
    if_neg (by simp [h1]), findClose_succ, if_pos (by simp [h0])]

/-- The section-marker regex accepts any line that starts with `'<!--X-'`,
a non-empty class-character name and `'-->'`, whatever trails after it,
capturing exactly the name. -/
theorem sectionMatch_mk (name trail : List Char) (hne : name ≠ [])
    (hcls : ∀ c ∈ name, classChar c = true) :
    sectionMatch (sectionPat ++ name ++ arrowPat ++ trail) = some name := by
  have harr : arrowPat = ['-', '-', '>'] := rfl
  have heq : sectionPat ++ name ++ arrowPat ++ trail =
      sectionPat ++ (name ++ ('-' :: '-' :: '>' :: trail)) := by
    rw [harr]
    simp
  rw [heq, sectionMatch]
  rw [if_pos (by simp)]
  have hdrop : (sectionPat ++ (name ++ ('-' :: '-' :: '>' :: trail))).drop sectionPat.length =
      name ++ ('-' :: '-' :: '>' :: trail) := List.drop_left _ _
  rw [hdrop]
  have htake : ((name ++ ('-' :: '-' :: '>' :: trail)).takeWhile classChar).length =
      name.length + 2 := by
    rw [List.takeWhile_append_of_pos (by intro a ha; simp [hcls a ha])]
    simp [List.takeWhile_cons, show classChar '-' = true from rfl,
      show classChar '>' = false from rfl]
  simp only [htake]
  have h0 : arrowPat.isPrefixOf ((name ++ ('-' :: '-' :: '>' :: trail)).drop name.length) = true := by
    rw [List.drop_left]
    rw [harr]
    simp [List.isPrefixOf]
  have h1 : arrowPat.isPrefixOf ((name ++ ('-' :: '-' :: '>' :: trail)).drop (name.length + 1)) = false := by
    rw [List.drop_append]
    rw [harr]
    simp [List.isPrefixOf]
  have h2 : arrowPat.isPrefixOf ((name ++ ('-' :: '-' :: '>' :: trail)).drop (name.length + 2)) = false := by
    rw [List.drop_append]
    rw [harr]
    simp [List.isPrefixOf]
  rw [findClose_exact _ _ (by cases name with | nil => exact absurd rfl hne | cons a l => simp) h0 h1 h2]
  simp [List.take_left]

theorem lastOccSplit_none_of_no_occur (sep : List Char) :
    ∀ s, hasOccur sep s = false → lastOccSplit sep s = none := by
  intro s
  induction s with
  | nil => intro _; rfl
  | cons c rest ih =>
    intro h
    rw [hasOccur, Bool.or_eq_false_iff] at h
    rw [lastOccSplit, ih h.2, h.1]
    rfl

theorem hasOccur_space_append (sep' x trail : List Char)
    (hx : ∀ c ∈ x, (' ' == c) = false) (h : hasOccur (' ' :: sep') trail = false) :
    hasOccur (' ' :: sep') (x ++ trail) = false := by
  induction x with
  | nil => simpa using h
  | cons c x' ih =>
    rw [List.cons_append, hasOccur, Bool.or_eq_false_iff]
    refine ⟨?_, ih (fun d hd => hx d (List.mem_cons_of_mem _ hd))⟩
    rw [List.isPrefixOf, hx c (List.mem_cons_self _ _)]
    rfl

/-- When `' -->'` does not occur in `trail`, its last occurrence in
`v ++ ' -->' ++ trail` is the explicit one, so the greedy `(.*)` captures
exactly `v`. -/
theorem lastOcc_boundary (v trail : List Char)
    (h : hasOccur subjectClose trail = false) :
    lastOccSplit subjectClose (v ++ (subjectClose ++ trail)) = some v := by
  induction v with
  | nil =>
    have hnone : lastOccSplit subjectClose (['-', '-', '>'] ++ trail) = none :=
      lastOccSplit_none_of_no_occur _ _
        (hasOccur_space_append _ _ _ (by decide) h)
    rw [show ([] : List Char) ++ (subjectClose ++ trail) =
      ' ' :: (['-', '-', '>'] ++ trail) from rfl]
    rw [lastOccSplit, hnone]
    rw [show subjectClose.isPrefixOf (' ' :: (['-', '-', '>'] ++ trail)) = true from by
      simp [subjectClose, toL, List.isPrefixOf]]
    rfl
  | cons c v' ih =>
    rw [List.cons_append, lastOccSplit, ih]

/-- The subject-marker regex accepts any line that starts with
`'<!--X-Subject: '`, any text, and `' -->'`: when `' -->'` does not recur
in the trailing text, the capture is exactly that text. -/
theorem subjectMatch_mk (v trail : List Char)
    (h : hasOccur subjectClose trail = false) :
    subjectMatch (subjectPat ++ v ++ subjectClose ++ trail) = some v := by
  have heq : subjectPat ++ v ++ subjectClose ++ trail =
      subjectPat ++ (v ++ (subjectClose ++ trail)) := by
    simp [List.append_assoc]
  rw [heq, subjectMatch, if_pos (isPrefixOf_append_self _ _), List.drop_left]
  exact lastOcc_boundary v trail h

theorem segStep_subject (s : SegState) (line v : List Char)
    (h : subjectMatch line = some v) :
    segStep s line = { s with subject := some v } := by
  simp [segStep, h]

/-- A successful `lastOccSplit` exhibits an occurrence of `sep`. -/
theorem lastOccSplit_shape (sep : List Char) :
    ∀ s r, lastOccSplit sep s = some r → ∃ t, s = r ++ sep ++ t := by
  intro s
  induction s with
  | nil => intro r hr; simp [lastOccSplit] at hr
  | cons c rest ih =>
    intro r hr
    rw [lastOccSplit] at hr
    cases h1 : lastOccSplit sep rest with
    | some r' =>
      rw [h1] at hr
      injection hr with hr
      obtain ⟨t, ht⟩ := ih r' h1
      exact ⟨t, by rw [← hr, ht]; simp⟩
    | none =>
      rw [h1] at hr
      by_cases h2 : sep.isPrefixOf (c :: rest) = true
      · rw [if_pos h2] at hr
        injection hr with hr
        obtain ⟨t, ht⟩ := List.isPrefixOf_iff_prefix.mp h2
        exact ⟨t, by rw [← hr, ← ht]; simp⟩
      · rw [if_neg h2] at hr
        exact absurd hr (by simp)

/-- Completeness of the subject matcher: it succeeds only on lines of the
marker-prefix shape. -/
theorem subjectMatch_shape (line v : List Char) (h : subjectMatch line = some v) :
    ∃ t, line = subjectPat ++ v ++ subjectClose ++ t := by
  rw [subjectMatch] at h
  by_cases hpre : subjectPat.isPrefixOf line = true
  · rw [if_pos hpre] at h
    obtain ⟨r, hr⟩ := List.isPrefixOf_iff_prefix.mp hpre
    rw [← hr, List.drop_left] at h
    obtain ⟨t, ht⟩ := lastOccSplit_shape subjectClose r v h
    exact ⟨t, by rw [← hr, ht]; simp⟩
  · rw [if_neg hpre] at h
    exact absurd h (by simp)

theorem findClose_some (rest : List Char) :
    ∀ k j, findClose rest k = some j →
    1 ≤ j ∧ j ≤ k ∧ arrowPat.isPrefixOf (rest.drop j) = true := by
  intro k
  induction k with
  | zero => intro j hj; simp [findClose] at hj
  | succ k' ih =>
    intro j hj
    rw [findClose] at hj
    by_cases hc : arrowPat.isPrefixOf (rest.drop (k' + 1)) = true
    · rw [if_pos hc] at hj
      injection hj with hj
      subst hj
      exact ⟨by omega, Nat.le_refl _, hc⟩
    · rw [if_neg hc] at hj
      obtain ⟨h1, h2, h3⟩ := ih j hj
      exact ⟨h1, by omega, h3⟩

/-- Completeness of the section matcher: it succeeds only on lines of the
marker-prefix shape, with a non-empty class-character name. -/
theorem sectionMatch_shape (line name : List Char) (h : sectionMatch line = some name) :
    name ≠ [] ∧ (∀ c ∈ name, classChar c = true) ∧
    ∃ t, line = sectionPat ++ name ++ arrowPat ++ t := by
  rw [sectionMatch] at h
  by_cases hpre : sectionPat.isPrefixOf line = true
  · rw [if_pos hpre] at h
    obtain ⟨r, hr⟩ := List.isPrefixOf_iff_prefix.mp hpre
    rw [← hr, List.drop_left] at h
    cases hfc : findClose r (r.takeWhile classChar).length with
    | none =>
      simp only [hfc] at h
      exact absurd h (by simp)
    | some j =>
      simp only [hfc, Option.some.injEq] at h
      obtain ⟨h1, h2, h3⟩ := findClose_some r _ j hfc
      have hrne : r ≠ [] := by
        intro hre
        subst hre
        simp at h2
        omega
      refine ⟨?_, ?_, ?_⟩
      · intro hnil
        rw [← h] at hnil
        rcases List.take_eq_nil_iff.mp hnil with h' | h'
        · omega
        · exact hrne h'
      · intro c hc
        rw [← h] at hc
        have hrsplit : r = r.takeWhile classChar ++ r.dropWhile classChar :=
          (List.takeWhile_append_dropWhile _ _).symm
        rw [hrsplit, List.take_append_of_le_length h2] at hc
        exact List.mem_takeWhile_imp (List.mem_of_mem_take hc)
      · obtain ⟨t, ht⟩ := List.isPrefixOf_iff_prefix.mp h3
        refine ⟨t, ?_⟩
        rw [← hr, ← List.take_append_drop j r, ← ht, h]
        simp
  · rw [if_neg hpre] at h
    exact absurd h (by simp)

/-- A line of neither marker-prefix shape is ordinary body text: both
matchers fail on it and the step appends it to the current section. -/
theorem segStep_nonmarker (s : SegState) (line : List Char)
    (hnsub : ¬ ∃ v t, line = subjectPat ++ v ++ subjectClose ++ t)
    (hnsec : ¬ ∃ nm t, nm ≠ [] ∧ (∀ c ∈ nm, classChar c = true) ∧
      line = sectionPat ++ nm ++ arrowPat ++ t) :
    segStep s line = { s with subs := appendKey s.subs s.state (line ++ '\n' :: []) } := by
  have h1 : subjectMatch line = none := by
    cases h : subjectMatch line with
    | none => rfl
    | some v =>
      obtain ⟨t, ht⟩ := subjectMatch_shape line v h
      exact absurd ⟨v, t, ht⟩ hnsub
  have h2 : sectionMatch line = none := by
    cases h : sectionMatch line with
    | none => rfl
    | some nm =>
      obtain ⟨ha, hb, t, ht⟩ := sectionMatch_shape line nm h
      exact absurd ⟨nm, t, ha, hb, ht⟩ hnsec
  exact segStep_plain s line h1 h2

/-- C1: on a textually well-formed document in which segmentation finds no
`Body-of-Message` section (here `"hello\n"`), `scrape_html_mail` does not
surface the body as absent: `subdivisions.get('Body-of-Message')` returns
`None` and the following `body.startswith(PREFIX)` raises
`AttributeError`, modelled as `Except.error ()`.  The code, not the
claim, is at fault here (the spec mandates absence). -/
theorem c1_body_absent_raises :
    scrape_html_mail (toL "hello\n") = Except.error () := rfl

/-- C2 counterexample: in a document with two `<!--X-A-->` markers, the
final text of section `A` is only the text after the last occurrence
(`"second\n"`), not the concatenation `"first\nsecond\n"` of all lines
seen while `A` was current: `subdivisions[state] = ''` reinitializes the
entry unconditionally, not only when absent. -/
theorem c2_counterexample :
    lookupKey (segment (toL "<!--X-A-->\nfirst\n<!--X-A-->\nsecond\n")).subs (toL "A") =
      some (toL "second\n") ∧
    some (toL "second\n") ≠ some (toL "first\nsecond\n") := ⟨rfl, by decide⟩

/-- C2 (amended): segmentation resets a repeated section name's entry to
empty text at every occurrence of its marker, so the final text mapped to
that name is the concatenation of the lines seen while the name was
current since its last marker occurrence. -/
theorem c2_amended_reset (pre mid post : List (List Char)) (mline name : List Char)
    (hbf : ∀ l ∈ pre ++ mline :: (mid ++ mline :: post), lineBreakFree l = true)
    (hsub : subjectMatch mline = none) (hsec : sectionMatch mline = some name)
    (hmid : ∀ l ∈ mid, subjectMatch l = none ∧ sectionMatch l = none)
    (hpost : ∀ l ∈ post, subjectMatch l = none ∧ sectionMatch l = none) :
    lookupKey (segment (joinLines (pre ++ mline :: (mid ++ mline :: post)))).subs name =
      some (joinLines post) := by
  simp only [segment]
  rw [splitlines_joinLines _ hbf]
  simp only [segLines]
  rw [List.foldl_append, List.foldl_cons]
  rw [segStep_marker (pre.foldl segStep segInit) mline name hsub hsec]
  rw [List.foldl_append, List.foldl_cons]
  have h3 := foldl_plain_lookup mid
    ⟨name, setKey (pre.foldl segStep segInit).subs name [], (pre.foldl segStep segInit).subject⟩
    [] hmid (lookup_setKey_self _ _ _)
  rw [segStep_marker _ mline name hsub hsec]
  have h5 := foldl_plain_lookup post
    ⟨name, setKey (mid.foldl segStep
        ⟨name, setKey (pre.foldl segStep segInit).subs name [],
          (pre.foldl segStep segInit).subject⟩).subs name [],
      (mid.foldl segStep
        ⟨name, setKey (pre.foldl segStep segInit).subs name [],
          (pre.foldl segStep segInit).subject⟩).subject⟩
    [] hpost (lookup_setKey_self _ _ _)
  simpa using h5.2

/-- C2 amended witness at a concrete duplicated marker. -/
theorem c2_amended_reset_witness :
    lookupKey (segment (joinLines ([] ++ toL "<!--X-A-->" ::
        ([toL "first"] ++ toL "<!--X-A-->" :: [toL "second"])))).subs (toL "A") =
      some (joinLines [toL "second"]) :=
  c2_amended_reset [] [toL "first"] [toL "second"] (toL "<!--X-A-->") (toL "A")
    (by decide) (by decide) (by decide) (by decide) (by decide)

/-- C3 counterexample: the line `'<!--X-Foo-->trailing'` shares its line
with trailing text, so the claim says it is ordinary body text; the code's
`re.match` is start-anchored only and treats it as a section marker named
`Foo`: the preamble stays empty and an empty `Foo` section is created
instead of the line being appended anywhere. -/
theorem c3_counterexample :
    sectionMatch (toL "<!--X-Foo-->trailing") = some (toL "Foo") ∧
    lookupKey (segment (toL "<!--X-Foo-->trailing\n")).subs (toL "Foo") = some [] ∧
    lookupKey (segment (toL "<!--X-Foo-->trailing\n")).subs preambleName = some [] ∧
    some ([] : List Char) ≠ some (toL "<!--X-Foo-->trailing\n") :=
  ⟨rfl, rfl, rfl, by decide⟩

/-- C3 (amended): marker matching is anchored at the line start only, with
arbitrary text permitted after the marker, and the name class `[A-za-z-]`
also covers the ASCII characters between `'Z'` and `'a'`.  Conjunct 1: a
line beginning with `'<!--X-'`, a non-empty name of class characters and
`'-->'` is treated as a section marker whatever text trails after the
`'-->'`.  Conjunct 2: a line beginning with `'<!--X-Subject: '`, any
text and `' -->'` is treated as a subject marker recording that text
(stated where `' -->'` does not recur later, so the greedy capture is
that text itself).  Conjunct 3: a line of neither marker-prefix shape is
ordinary body text, appended to the current section. -/
theorem c3_amended_start_anchored (s : SegState) (name trail vtext trail' : List Char)
    (hne : name ≠ []) (hcls : ∀ c ∈ name, classChar c = true)
    (hsub : subjectMatch (sectionPat ++ name ++ arrowPat ++ trail) = none)
    (hocc : hasOccur subjectClose trail' = false) :
    (segStep s (sectionPat ++ name ++ arrowPat ++ trail) =
      ⟨name, setKey s.subs name [], s.subject⟩) ∧
    (segStep s (subjectPat ++ vtext ++ subjectClose ++ trail') =
      { s with subject := some vtext }) ∧
    (∀ line : List Char,
      (¬ ∃ v t, line = subjectPat ++ v ++ subjectClose ++ t) →
      (¬ ∃ nm t, nm ≠ [] ∧ (∀ c ∈ nm, classChar c = true) ∧
        line = sectionPat ++ nm ++ arrowPat ++ t) →
      segStep s line = { s with subs := appendKey s.subs s.state (line ++ '\n' :: []) }) :=
  ⟨segStep_marker s _ name hsub (sectionMatch_mk name trail hne hcls),
   segStep_subject s _ vtext (subjectMatch_mk vtext trail' hocc),
   fun line hnsub hnsec => segStep_nonmarker s line hnsub hnsec⟩

/-- C3 amended witness: a section marker with trailing text and an
underscore (accepted by the `A-z` range) in its name, a subject marker
with trailing text, and a short marker-free line appended as body text
(too short for either marker shape, by length). -/
theorem c3_amended_start_anchored_witness :
    (segStep segInit (sectionPat ++ toL "my_Name" ++ arrowPat ++ toL "trailing") =
      ⟨toL "my_Name", setKey segInit.subs (toL "my_Name") [], segInit.subject⟩) ∧
    (segStep segInit (subjectPat ++ toL "Hello" ++ subjectClose ++ toL "tail") =
      { segInit with subject := some (toL "Hello") }) ∧
    (segStep segInit (toL "hi.") =
      { segInit with subs := appendKey segInit.subs segInit.state (toL "hi." ++ '\n' :: []) }) := by
  obtain ⟨h1, h2, h3⟩ := c3_amended_start_anchored segInit (toL "my_Name") (toL "trailing")
    (toL "Hello") (toL "tail") (by decide) (by decide) (by decide) (by decide)
  refine ⟨h1, h2, h3 (toL "hi.") ?_ ?_⟩
  · rintro ⟨v, t, heq⟩
    have hlen := congrArg List.length heq
    rw [show (toL "hi.").length = 3 from rfl] at hlen
    simp only [List.length_append] at hlen
    rw [show subjectPat.length = 15 from rfl, show subjectClose.length = 4 from rfl] at hlen
    omega
  · rintro ⟨nm, t, _, _, heq⟩
    have hlen := congrArg List.length heq
    rw [show (toL "hi.").length = 3 from rfl] at hlen
    simp only [List.length_append] at hlen
    rw [show sectionPat.length = 6 from rfl, show arrowPat.length = 3 from rfl] at hlen
    omega

/-- C5 counterexample: the marker-free document `"hello"` (no trailing
newline) yields a preamble of `"hello\n"` — each scanned line gets a
newline appended — which is not equal to the entire input. -/
theorem c5_counterexample :
    (segment (toL "hello")).subject = none ∧
    (segment (toL "hello")).subs = [(preambleName, toL "hello\n")] ∧
    toL "hello\n" ≠ toL "hello" := ⟨rfl, rfl, by decide⟩

/-- C5 (amended): a document with no marker lines segments to an absent
subject and a single `preamble` section holding every line with a newline
appended — equal to the entire document exactly when the document is a
(possibly empty) sequence of `'\n'`-terminated lines — and the
`Body-of-Message` lookup is then absent. -/
theorem c5_amended_no_markers (doc : List Char)
    (h : ∀ l ∈ splitlines doc, subjectMatch l = none ∧ sectionMatch l = none) :
    (segment doc).subject = none ∧
    (segment doc).subs = [(preambleName, joinLines (splitlines doc))] ∧
    lookupKey (segment doc).subs bodyName = none ∧
    ((∀ c ∈ doc, isLineBreak c = true → c = '\n') →
      (doc ≠ [] → doc.getLast? = some '\n') →
      joinLines (splitlines doc) = doc) := by
  have hfold := foldl_plain_preamble (splitlines doc) [] h
  have hseg : segment doc = ⟨preambleName, [(preambleName, joinLines (splitlines doc))], none⟩ := by
    simp only [segment, segLines, segInit]
    simpa using hfold
  refine ⟨by rw [hseg], by rw [hseg], ?_, ?_⟩
  · rw [hseg]
    simp [lookupKey, show ¬preambleName = bodyName from by decide]
  · intro hpure hend
    exact joinLines_splitlines doc hpure hend

/-- C5 amended witness at the marker-free document `"hello\nworld\n"`. -/
theorem c5_amended_no_markers_witness :
    (segment (toL "hello\nworld\n")).subject = none ∧
    (segment (toL "hello\nworld\n")).subs =
      [(preambleName, joinLines (splitlines (toL "hello\nworld\n")))] ∧
    lookupKey (segment (toL "hello\nworld\n")).subs bodyName = none ∧
    joinLines (splitlines (toL "hello\nworld\n")) = toL "hello\nworld\n" := by
  obtain ⟨a, b, c, d⟩ := c5_amended_no_markers (toL "hello\nworld\n") (by decide)
  exact ⟨a, b, c, d (by decide) (by decide)⟩

/-- C4: in state WITHIN, a non-blank line is kept exactly when its first
character is one of `'-'`, `'+'`, `'@'`, space; the first non-blank line
failing that test ends the patch, and the result is the accumulated text
with trailing whitespace trimmed and exactly one newline appended,
independent of — neither consuming nor including — the terminating line
and whatever follows it. -/
theorem c4_within_keep (c : Char) (t : List Char) (ls : List (List Char)) (acc : List Char) :
    (diffChars.contains c = true →
      extractGo ((c :: t) :: ls) acc = extractGo ls (acc ++ (c :: t) ++ '\n' :: [])) ∧
    (diffChars.contains c = false →
      extractGo ((c :: t) :: ls) acc = some (rstrip acc ++ '\n' :: [])) := by
  constructor <;> intro h <;> simp at h <;> simp [extractGo, h]

/-- C4 witness: `'+new'` is kept, `'End.'` terminates with trim plus one
newline. -/
theorem c4_within_keep_witness :
    (extractGo [toL "+new"] (toL "--- a\n") =
      extractGo [] (toL "--- a\n" ++ toL "+new" ++ '\n' :: [])) ∧
    (extractGo [toL "End."] (toL "--- a\n") =
      some (rstrip (toL "--- a\n") ++ '\n' :: [])) :=
  ⟨(c4_within_keep '+' (toL "new") [] (toL "--- a\n")).1 (by decide),
   (c4_within_keep 'E' (toL "nd.") [] (toL "--- a\n")).2 (by decide)⟩

/-- C6 counterexample: the body `"--- \nEND\n"` extracts to `"---\n"` —
trimming eats the trailing space of the `"--- "` start line — so the
extracted patch does not still start with `'--- '`, and re-running
extraction on it returns `none`, not the patch itself. -/
theorem c6_counterexample :
    extract_patch (toL "--- \nEND\n") = some (toL "---\n") ∧
    startPat.isPrefixOf (toL "---\n") = false ∧
    extract_patch (toL "---\n") = none := ⟨rfl, rfl, rfl⟩

/-- C6 (amended): extraction is idempotent on every extracted patch that
still starts with `'--- '` (the trim can reduce the start line to `"---"`,
in which case re-extraction returns absent): if `extract_patch body = some p`
and `p` starts with `'--- '`, then `extract_patch p = some p`. -/
theorem c6_amended_idempotent (body p : List Char)
    (h1 : extract_patch body = some p) (h2 : startPat.isPrefixOf p = true) :
    extract_patch p = some p := by
  obtain ⟨pls, hp, hgood⟩ :=
    extractPre_some_good (splitlines body) p (splitlines_breakFree body) h1
  cases pls with
  | nil =>
    subst hp
    exact absurd h2 (by decide)
  | cons m rest =>
    have hpfx : startPat <+: p := List.isPrefixOf_iff_prefix.mp h2
    have hjoin : joinLines (m :: rest) = m ++ '\n' :: joinLines rest := rfl
    have hmp : startPat <+: m := by
      refine prefix_of_append_cons startPat m (joinLines rest) (by decide) ?_
      rw [← hjoin, ← hp]
      exact hpfx
    have hbf : ∀ l ∈ m :: rest, lineBreakFree l = true := fun l hl => (hgood l hl).1
    rw [hp]
    simp only [extract_patch]
    rw [splitlines_joinLines _ hbf]
    rw [extractPre, if_pos (List.isPrefixOf_iff_prefix.mpr hmp)]
    rw [extractGo_all_keep rest (m ++ '\n' :: [])
      (fun l hl => (hgood l (List.mem_cons_of_mem _ hl)).2)]
    simp [joinLines]

/-- C6 amended witness: a patch extracted mid-body re-extracts to itself. -/
theorem c6_amended_idempotent_witness :
    extract_patch (toL "--- a\n+b\n") = some (toL "--- a\n+b\n") :=
  c6_amended_idempotent (toL "x\n--- a\n+b\nEND\n") (toL "--- a\n+b\n")
    (by decide) (by decide)

/-- C7: when the scan ends still WITHIN — every line after the `'--- '`
start line is blank or starts in `'-+@ '` — `extract_patch` returns the
accumulator as-is: every scanned line newline-terminated, with no
trailing-whitespace trim and no forced-newline normalization. -/
theorem c7_end_within (pre rest : List (List Char)) (m : List Char)
    (hpre : ∀ l ∈ pre, lineBreakFree l = true ∧ startPat.isPrefixOf l = false)
    (hm : lineBreakFree m = true) (hms : startPat.isPrefixOf m = true)
    (hrest : ∀ l ∈ rest, lineBreakFree l = true ∧ keepLine l = true) :
    extract_patch (joinLines (pre ++ m :: rest)) = some (joinLines (m :: rest)) := by
  have hbf : ∀ l ∈ pre ++ m :: rest, lineBreakFree l = true := by
    intro l hl
    rcases List.mem_append.mp hl with hl | hl
    · exact (hpre l hl).1
    · rcases List.mem_cons.mp hl with hl | hl
      · subst hl; exact hm
      · exact (hrest l hl).1
  simp only [extract_patch]
  rw [splitlines_joinLines _ hbf]
  rw [extractPre_skip pre (m :: rest) (fun l hl => (hpre l hl).2)]
  rw [extractPre, if_pos hms]
  rw [extractGo_all_keep rest (m ++ '\n' :: []) (fun l hl => (hrest l hl).2)]
  simp [joinLines]

/-- C7 witness: a body ending inside the diff keeps its trailing spaces
(no trim). -/
theorem c7_end_within_witness :
    extract_patch (joinLines ([toL "intro"] ++ toL "--- a" :: [toL "+x  "])) =
      some (joinLines (toL "--- a" :: [toL "+x  "])) :=
  c7_end_within [toL "intro"] [toL "+x  "] (toL "--- a")
    (by decide) (by decide) (by decide) (by decide)

/-- C8 counterexample: the body `"<PRE>\n</PRE>\n\n"` ends with the exact
literal `'\n</PRE>\n\n'` (it is `"<PRE>" ++ SUFFIX`), yet stripping
returns `"</PRE>\n\n"`: after the prefix is removed the remainder is too
short to end with the suffix, so the trailing wrapper survives in full
rather than being "exactly removed" (which would leave `"<PRE>"`). -/
theorem c8_counterexample :
    SUFFIX.isSuffixOf (toL "<PRE>\n</PRE>\n\n") = true ∧
    toL "<PRE>\n</PRE>\n\n" = toL "<PRE>" ++ SUFFIX ∧
    stripWrapper (toL "<PRE>\n</PRE>\n\n") = toL "</PRE>\n\n" ∧
    toL "</PRE>\n\n" ≠ toL "<PRE>" := ⟨rfl, rfl, rfl, by decide⟩

/-- C8 (amended): stripping is exact-match-only with the suffix test
applied to the prefix-stripped body: a full `<PRE>\n ... \n</PRE>\n\n`
wrapper is stripped exactly to the inner text; a body with neither
literal is untouched; a prefix-wrapped body whose remainder does not end
with the exact suffix keeps its trailing text intact. -/
theorem c8_amended_exact_strip (inner b c : List Char)
    (hb1 : PREFIX.isPrefixOf b = false) (hb2 : SUFFIX.isSuffixOf b = false)
    (hc : SUFFIX.isSuffixOf c = false) :
    stripWrapper (PREFIX ++ inner ++ SUFFIX) = inner ∧
    stripWrapper b = b ∧
    stripWrapper (PREFIX ++ c) = c := by
  refine ⟨?_, ?_, ?_⟩
  · simp only [stripWrapper, List.append_assoc, isPrefixOf_append_self, if_true,
      List.drop_left]
    rw [if_pos (by simp)]
    have hlen : (inner ++ SUFFIX).length - SUFFIX.length = inner.length := by simp
    rw [hlen, List.take_left]
  · simp only [stripWrapper, hb1, Bool.false_eq_true, if_false, hb2]
  · simp only [stripWrapper, isPrefixOf_append_self, if_true, List.drop_left, hc,
      Bool.false_eq_true, if_false]

/-- C8 amended witness at concrete wrapped and unwrapped bodies. -/
theorem c8_amended_exact_strip_witness :
    stripWrapper (PREFIX ++ toL "x" ++ SUFFIX) = toL "x" ∧
    stripWrapper (toL "y") = toL "y" ∧
    stripWrapper (PREFIX ++ toL "z") = toL "z" :=
  c8_amended_exact_strip (toL "x") (toL "y") (toL "z") (by decide) (by decide) (by decide)

/-- C9: `extract_patch` is total — the `line[0]` indexing can never fail,
because the blank-line case is handled before the first-character test:
the model with explicit fallible indexing returns `ok` of the pure
result on every input body. -/
theorem c9_no_index_error (body : List Char) :
    extract_patchE body = Except.ok (extract_patch body) := by
  simp only [extract_patchE, extract_patch, extractPreE_ok]

/-- C10: every patch `extract_patch` returns — in the mid-body-terminated
case and the end-of-input case alike — is non-empty and ends with a
newline character. -/
theorem c10_ends_newline (body p : List Char) (h : extract_patch body = some p) :
    p ≠ [] ∧ p.getLast? = some '\n' :=
  extractPre_some_ends (splitlines body) p h

/-- C10 witness at a concrete body. -/
theorem c10_ends_newline_witness :
    toL "--- a\n" ≠ [] ∧ (toL "--- a\n").getLast? = some '\n' :=
  c10_ends_newline (toL "--- a\n") (toL "--- a\n") (by decide)

end PatchFinder
